import Mathlib

/-!
The load runner `testDB` and its batch builder

A shallow embedding of `testDB` (src/main.go, lines 49-104).

* Byte slices and Go strings are lists of characters (`Bytes`); every byte the
  program writes is ASCII.
* `fmt.Sprintf("k%d%d", ...)` is the decimal rendering of Go's `fmt` package.
* The store (`pipe.Exec`) and the clock (`time.Now`) are the environment: each
  worker consumes a list of `Tick`s, one per evaluation of the loop condition.
* The two shared `int64` counters are integers updated by `addInt64`, which
  wraps around like `atomic.AddInt64`.
-/

namespace Whobest

/-! ## Byte slices -/

/-- A byte slice or Go string. -/
abbrev Bytes := List Char

/-- The zeroed slice `make([]byte, n)`. -/
def make (n : Nat) : Bytes := List.replicate n (Char.ofNat 0)

/-- Go's builtin `copy(dst, src)`: overwrites the first `min (len dst) (len src)`
bytes of `dst` and returns the new content of `dst` with that number. -/
def copy (dst src : Bytes) : Bytes × Nat :=
  let n := min dst.length src.length
  (src.take n ++ dst.drop n, n)

/-- The statement `copy(dst[off:], src)`, as the new content of `dst`. The program
only slices at `off = n`, the length copied into the 32-byte key buffer, which never
exceeds the 37 bytes of `dst`. -/
def copyAt (dst : Bytes) (off : Nat) (src : Bytes) : Bytes :=
  dst.take off ++ (copy (dst.drop off) src).1

/-! ## Decimal formatting (`%d`) -/

/-- The byte `'0' + d`. -/
def digitChar (d : Nat) : Char := Char.ofNat (48 + d)

/-- The digit loop of `%d`: peel the last digit while `u >= 10`, writing from the
right. The first argument bounds the number of rounds. -/
def fmtDigits : Nat → Nat → Bytes → Bytes
  | 0, u, acc => digitChar (u % 10) :: acc
  | fuel + 1, u, acc =>
    if 10 ≤ u then fmtDigits fuel (u / 10) (digitChar (u % 10) :: acc)
    else digitChar u :: acc

/-- Decimal digits of an unsigned number. -/
def fmtNat (u : Nat) : Bytes := fmtDigits u u []

/-- The verb `%d` on a signed integer. -/
def fmtInt (i : Int) : Bytes :=
  if i < 0 then '-' :: fmtNat i.natAbs else fmtNat i.natAbs

/-- `fmt.Sprintf("k%d%d", workerID, unixNano)` (line 70). -/
def sprintfKey (workerID unixNano : Int) : Bytes :=
  'k' :: (fmtInt workerID ++ fmtInt unixNano)

/-! ## Batch builder (lines 64-81) -/

/-- The scratch buffers a worker owns (lines 64-67; `valueBuf` is constant). -/
structure WorkerState where
  keyBuf : Bytes
  hashKey : Bytes
  listKey : Bytes
deriving DecidableEq, Repr

/-- The buffers as allocated at lines 64, 66 and 67. -/
def newWorkerState : WorkerState :=
  { keyBuf := make 32, hashKey := make 37, listKey := make 37 }

/-- The constant `valueBuf` (line 65). -/
def valueBuf : Bytes := ['v', 'a', 'l', 'u', 'e']

/-- The suffix `":hash"`. -/
def hashSuffix : Bytes := [':', 'h', 'a', 's', 'h']

/-- The suffix `":list"`. -/
def listSuffix : Bytes := [':', 'l', 'i', 's', 't']

/-- A command queued on the pipeline, with the key string it is addressed to. -/
inductive Cmd where
  | Set (key : Bytes) (value : Bytes) (expiration : Int)
  | HSet (key : Bytes) (values : List String)
  | LPush (key : Bytes) (values : List String)
  | Get (key : Bytes)
deriving DecidableEq, Repr

/-- What one iteration computes at lines 70-81. -/
structure Built where
  state : WorkerState
  n : Nat
  key : Bytes
  cmds : List Cmd
deriving DecidableEq, Repr

/-- Lines 70-81: format the key into `keyBuf`, derive the hash and list keys in
their buffers, queue the four commands. `string(hashKey)` and `string(listKey)`
convert the whole 37-byte buffers. -/
def buildBatch (workerID unixNano : Int) (s : WorkerState) : Built :=
  let r := copy s.keyBuf (sprintfKey workerID unixNano)
  let keyBuf := r.1
  let n := r.2
  let key := keyBuf.take n
  let hashKey := (copy s.hashKey key).1
  let hashKey := copyAt hashKey n hashSuffix
  let listKey := (copy s.listKey key).1
  let listKey := copyAt listKey n listSuffix
  { state := { keyBuf := keyBuf, hashKey := hashKey, listKey := listKey }
    n := n
    key := key
    cmds :=
      [ Cmd.Set key valueBuf 0,
        Cmd.HSet hashKey ["field1", "value1", "field2", "value2"],
        Cmd.LPush listKey ["item1", "item2", "item3"],
        Cmd.Get key ] }

/-- The key string passed to `HSet` in a batch. -/
def hsetKey : List Cmd → Option Bytes
  | [] => none
  | Cmd.HSet k _ :: _ => some k
  | _ :: rest => hsetKey rest

/-- The key string passed to `LPush` in a batch. -/
def lpushKey : List Cmd → Option Bytes
  | [] => none
  | Cmd.LPush k _ :: _ => some k
  | _ :: rest => lpushKey rest

/-! ## Load runner (lines 49-104) -/

/-- One element of the slice `pipe.Exec` returns; `err` is `cmd.Err()`. -/
structure Cmder where
  err : Option String
deriving DecidableEq, Repr

/-- The pair `cmds, err` returned by `pipe.Exec(ctx)` (line 83). -/
structure ExecResult where
  cmds : List Cmder
  err : Option String
deriving DecidableEq, Repr

/-- The shared counters `ops` and `errors` (line 50). -/
structure Counters where
  ops : Int
  errors : Int
deriving DecidableEq, Repr

/-- The call `atomic.AddInt64(&x, delta)`: two's-complement addition on 64 bits. -/
def addInt64 (x delta : Int) : Int :=
  (x + delta + 9223372036854775808) % 18446744073709551616 - 9223372036854775808

/-- Lines 89-95: one counter is incremented for each returned command. -/
def tallyCmds : List Cmder → Counters → Counters
  | [], c => c
  | cmd :: rest, c =>
    if cmd.err.isSome then tallyCmds rest { c with errors := addInt64 c.errors 1 }
    else tallyCmds rest { c with ops := addInt64 c.ops 1 }

/-- Lines 84-95: a batch-level error adds one to `errors` and skips the commands. -/
def tallyExec (r : ExecResult) (c : Counters) : Counters :=
  if r.err.isSome then { c with errors := addInt64 c.errors 1 }
  else tallyCmds r.cmds c

/-- What the environment supplies to one evaluation of the loop condition and the
iteration that may follow: the clock reading compared with `endTime`, the value of
`time.Now().UnixNano()` at line 70, and the answer of `pipe.Exec` to the batch. The
pipeline of go-redis empties its queue inside `Exec`, so every call receives the four
commands of its own iteration, also after a `continue` that skips `pipe.Discard()`. -/
structure Tick where
  now : Int
  unixNano : Int
  exec : List Cmd → ExecResult

/-- The worker loop (lines 69-98): while the clock is before `endTime`, build the
batch, execute it and tally. -/
def workerLoop (endTime workerID : Int) : List Tick → WorkerState → Counters → Counters
  | [], _, c => c
  | tk :: rest, s, c =>
    if tk.now < endTime then
      let b := buildBatch workerID tk.unixNano s
      workerLoop endTime workerID rest b.state (tallyExec (tk.exec b.cmds) c)
    else c

/-- The constant `concurrencyLevel` (line 54). -/
def concurrencyLevel : Nat := 1000

/-- The function `testDB`: `start` is `time.Now()` at line 53, `env i` the ticks
worker `i` meets (the store handle `client` and the clock; `dbName` is unused). The
workers only share the two counters, which they update by atomic additions; these
commute (`foldl_applyIncr_perm`, `testDB_interleaving`), so the workers are run one
after the other. -/
def testDB (start duration : Int) (env : Nat → List Tick) : Int × Int :=
  let endTime := start + duration
  let c := (List.range concurrencyLevel).foldl
    (fun c (i : Nat) => workerLoop endTime (Int.ofNat i) (env i) newWorkerState c) { ops := 0, errors := 0 }
  (c.ops, c.errors)

/-! ## Observables of a run -/

/-- The results of `pipe.Exec` a worker receives, in order: one per iteration. -/
def workerResults (endTime workerID : Int) : List Tick → WorkerState → List ExecResult
  | [], _ => []
  | tk :: rest, s =>
    if tk.now < endTime then
      let b := buildBatch workerID tk.unixNano s
      tk.exec b.cmds :: workerResults endTime workerID rest b.state
    else []

/-- The results of `pipe.Exec` received by all workers during a run. -/
def runResults (start duration : Int) (env : Nat → List Tick) : List ExecResult :=
  (List.range concurrencyLevel).foldr
    (fun (i : Nat) acc =>
      workerResults (start + duration) (Int.ofNat i) (env i) newWorkerState ++ acc) []

/-- Number of loop iterations performed by all workers. -/
def iterations (start duration : Int) (env : Nat → List Tick) : Nat :=
  (runResults start duration env).length

/-- Number of batches whose execution call was rejected. -/
def rejectedBatches : List ExecResult → Nat
  | [] => 0
  | r :: rest => (if r.err.isSome then 1 else 0) + rejectedBatches rest

/-- Number of operations that reported an error inside executed batches. -/
def failedOps : List ExecResult → Nat
  | [] => 0
  | r :: rest =>
    (if r.err.isSome then 0 else r.cmds.countP (fun cmd => cmd.err.isSome)) + failedOps rest

/-- Number of operations that succeeded inside executed batches. -/
def succeededOps : List ExecResult → Nat
  | [] => 0
  | r :: rest =>
    (if r.err.isSome then 0 else r.cmds.countP (fun cmd => !cmd.err.isSome)) + succeededOps rest

/-- Number of per-operation outcomes of executed batches. -/
def observedOps : List ExecResult → Nat
  | [] => 0
  | r :: rest => (if r.err.isSome then 0 else r.cmds.length) + observedOps rest

/-- An atomic increment of one of the two counters. -/
inductive Incr where
  | op
  | error
deriving DecidableEq, Repr

/-- Perform one atomic increment. -/
def applyIncr (c : Counters) : Incr → Counters
  | Incr.op => { c with ops := addInt64 c.ops 1 }
  | Incr.error => { c with errors := addInt64 c.errors 1 }

/-- The atomic increments one result of `pipe.Exec` gives rise to. -/
def execIncrs (r : ExecResult) : List Incr :=
  if r.err.isSome then [Incr.error]
  else r.cmds.map (fun cmd => if cmd.err.isSome then Incr.error else Incr.op)

/-- All atomic increments of a run, worker after worker. -/
def runIncrs : List ExecResult → List Incr
  | [] => []
  | r :: rest => execIncrs r ++ runIncrs rest

/-! ## Sample environments -/

/-- A successful command outcome. -/
def okCmd : Cmder := { err := none }

/-- A failed command outcome. -/
def badCmd : Cmder := { err := some "ERR" }

/-- A store that rejects every batch. -/
def rejectAll : List Cmd → ExecResult := fun _ => { cmds := [], err := some "i/o timeout" }

/-- A store that executes every batch with success for each queued command. -/
def succeedAll : List Cmd → ExecResult := fun b => { cmds := b.map (fun _ => okCmd), err := none }

/-- A store handle that reports no batch error while the second command failed. The
pipeline of go-redis never answers so (see `execReportsFirstError`); the sample only
exercises lines 90-91. -/
def secondFails : List Cmd → ExecResult :=
  fun _ => { cmds := [okCmd, badCmd, okCmd, okCmd], err := none }

/-- An environment where worker 0 runs `k` iterations against `exec` and every
other worker finds the deadline passed at once. -/
def soloEnv (k : Nat) (exec : List Cmd → ExecResult) : Nat → List Tick :=
  fun i =>
    if i = 0 then
      List.replicate k { now := 1, unixNano := 1700000000000000000, exec := exec }
        ++ [{ now := 10, unixNano := 1700000000000000001, exec := exec }]
    else [{ now := 10, unixNano := 1700000000000000002, exec := exec }]

/-- An environment where worker `i` runs as many iterations as the `i`-th entry of
`plan` says, against the store of that entry, the clock advancing by one at each
reading; workers beyond the plan find the deadline passed at once. To be run with
`start + duration = 1000`. -/
def planEnv (plan : List (Nat × (List Cmd → ExecResult))) : Nat → List Tick :=
  fun i =>
    match plan.get? i with
    | some (k, exec) =>
      (List.range k).map (fun j =>
          { now := (j : Int), unixNano := 1700000000000000000 + (j : Int), exec := exec })
        ++ [{ now := 1000, unixNano := 1700000000000001000, exec := exec }]
    | none => [{ now := 1000, unixNano := 1700000000000001000, exec := rejectAll }]

/-- The guarantee of `Pipeline.Exec` in go-redis v8, the client `testDB` is handed
(a dependency, not code of this repository): the error it returns is the first error
among the commands, so a nil error means that every returned command succeeded. -/
def execReportsFirstError (r : ExecResult) : Prop :=
  r.err = none → ∀ cmd ∈ r.cmds, cmd.err = none

/-- Read a decimal numeral back: the inverse of `fmtNat`. -/
def parseNat (s : Bytes) : Nat := s.foldl (fun a c => 10 * a + (c.toNat - 48)) 0

/-- Tally a list of results of `pipe.Exec`, in order. -/
def runTally (rs : List ExecResult) (c : Counters) : Counters :=
  rs.foldl (fun c r => tallyExec r c) c

/-! ## The counters -/

theorem addInt64_add (x a b : Int) : addInt64 (addInt64 x a) b = addInt64 x (a + b) := by
  unfold addInt64
  omega

theorem addInt64_zero_of_bound (k : Int) (h0 : 0 ≤ k) (h1 : k < 9223372036854775808) :
    addInt64 0 k = k := by
  unfold addInt64
  omega

theorem tallyCmds_wrap (cmds : List Cmder) (a b : Int) :
    tallyCmds cmds { ops := addInt64 0 a, errors := addInt64 0 b }
      = { ops := addInt64 0 (a + (cmds.countP (fun cmd => !cmd.err.isSome) : Nat)),
          errors := addInt64 0 (b + (cmds.countP (fun cmd => cmd.err.isSome) : Nat)) } := by
  induction cmds generalizing a b with
  | nil => simp [tallyCmds]
  | cons cmd rest ih =>
    rw [List.countP_cons, List.countP_cons]
    by_cases h : cmd.err.isSome = true
    · have h2 : (!cmd.err.isSome) = false := by rw [h]; rfl
      simp only [tallyCmds, h, h2, if_true, addInt64_add, ih]
      simp only [Bool.false_eq_true, if_false, Nat.add_zero, Nat.cast_add, Nat.cast_one]
      simp
      congr 1
      ring
    · have h1 : cmd.err.isSome = false := by simpa using h
      have h2 : (!cmd.err.isSome) = true := by rw [h1]; rfl
      simp only [tallyCmds, h1, h2, if_true, addInt64_add, ih]
      simp only [Bool.false_eq_true, if_false, Nat.add_zero, Nat.cast_add, Nat.cast_one]
      simp
      congr 1
      ring

/-- Lines 89-95 away from overflow: `ops` grows by the number of successful commands
and `errors` by the number of failed ones. -/
theorem tallyCmds_exact (cmds : List Cmder) (c : Counters)
    (h1 : -9223372036854775808 ≤ c.ops)
    (h2 : c.ops + (cmds.countP (fun cmd => !cmd.err.isSome) : Nat) < 9223372036854775808)
    (h3 : -9223372036854775808 ≤ c.errors)
    (h4 : c.errors + (cmds.countP (fun cmd => cmd.err.isSome) : Nat) < 9223372036854775808) :
    tallyCmds cmds c
      = { ops := c.ops + (cmds.countP (fun cmd => !cmd.err.isSome) : Nat),
          errors := c.errors + (cmds.countP (fun cmd => cmd.err.isSome) : Nat) } := by
  induction cmds generalizing c with
  | nil => simp [tallyCmds]
  | cons cmd rest ih =>
    by_cases h : cmd.err.isSome = true
    · have ec1 : (cmd :: rest).countP (fun cmd => !cmd.err.isSome)
          = rest.countP (fun cmd => !cmd.err.isSome) :=
        List.countP_cons_of_neg _ rest (by simp [h])
      have ec2 : (cmd :: rest).countP (fun cmd => cmd.err.isSome)
          = rest.countP (fun cmd => cmd.err.isSome) + 1 :=
        List.countP_cons_of_pos _ rest h
      rw [ec1] at h2
      rw [ec2] at h4
      rw [ec1, ec2]
      push_cast at h4 ⊢
      have e : addInt64 c.errors 1 = c.errors + 1 := by
        unfold addInt64
        omega
      simp only [tallyCmds, h, if_true, e]
      rw [ih { ops := c.ops, errors := c.errors + 1 } h1 h2 (by simp only; omega)
        (by simp only; omega)]
      simp only [Counters.mk.injEq, true_and]
      omega
    · have hf : cmd.err.isSome = false := by simpa using h
      have ec1 : (cmd :: rest).countP (fun cmd => !cmd.err.isSome)
          = rest.countP (fun cmd => !cmd.err.isSome) + 1 :=
        List.countP_cons_of_pos _ rest (by simp [hf])
      have ec2 : (cmd :: rest).countP (fun cmd => cmd.err.isSome)
          = rest.countP (fun cmd => cmd.err.isSome) :=
        List.countP_cons_of_neg _ rest (by simp [hf])
      rw [ec1] at h2
      rw [ec2] at h4
      rw [ec1, ec2]
      push_cast at h2 ⊢
      have e : addInt64 c.ops 1 = c.ops + 1 := by
        unfold addInt64
        omega
      simp only [tallyCmds, hf, Bool.false_eq_true, if_false, e]
      rw [ih { ops := c.ops + 1, errors := c.errors } (by simp only; omega)
        (by simp only; omega) h3 h4]
      simp only [Counters.mk.injEq, and_true]
      omega

theorem runTally_nil (c : Counters) : runTally [] c = c := rfl

theorem runTally_cons (r : ExecResult) (rs : List ExecResult) (c : Counters) :
    runTally (r :: rs) c = runTally rs (tallyExec r c) := rfl

theorem runTally_append (rs rs2 : List ExecResult) (c : Counters) :
    runTally (rs ++ rs2) c = runTally rs2 (runTally rs c) := by
  simp [runTally, List.foldl_append]

theorem runTally_wrap (rs : List ExecResult) (a b : Int) :
    runTally rs { ops := addInt64 0 a, errors := addInt64 0 b }
      = { ops := addInt64 0 (a + (succeededOps rs : Nat)),
          errors := addInt64 0 (b + ((failedOps rs + rejectedBatches rs : Nat) : Int)) } := by
  induction rs generalizing a b with
  | nil => simp [runTally, succeededOps, failedOps, rejectedBatches]
  | cons r rest ih =>
    rw [runTally_cons]
    by_cases h : r.err.isSome = true
    · simp only [tallyExec, h, if_true, addInt64_add, succeededOps, failedOps, rejectedBatches]
      rw [ih]
      congr 2 <;> push_cast <;> ring
    · have h1 : r.err.isSome = false := by simpa using h
      simp only [tallyExec, h1, Bool.false_eq_true, if_false, succeededOps, failedOps,
        rejectedBatches]
      rw [tallyCmds_wrap, ih]
      congr 2 <;> push_cast <;> ring

theorem workerLoop_eq (endTime workerID : Int) (ticks : List Tick) (s : WorkerState)
    (c : Counters) :
    workerLoop endTime workerID ticks s c
      = runTally (workerResults endTime workerID ticks s) c := by
  induction ticks generalizing s c with
  | nil => rfl
  | cons tk rest ih =>
    by_cases h : tk.now < endTime
    · simp only [workerLoop, workerResults, h, if_true, runTally_cons, ih]
    · simp [workerLoop, workerResults, h, runTally_nil]

theorem foldl_workers_eq (endTime : Int) (env : Nat → List Tick) (l : List Nat) (c : Counters) :
    l.foldl (fun c (i : Nat) => workerLoop endTime (Int.ofNat i) (env i) newWorkerState c) c
      = runTally (l.foldr (fun (i : Nat) acc =>
          workerResults endTime (Int.ofNat i) (env i) newWorkerState ++ acc) []) c := by
  induction l generalizing c with
  | nil => rfl
  | cons i rest ih =>
    rw [List.foldl_cons, List.foldr_cons, runTally_append, ih, workerLoop_eq]

/-- The totals `testDB` returns, in terms of the results its workers received. -/
theorem testDB_eq (start duration : Int) (env : Nat → List Tick) :
    testDB start duration env
      = (addInt64 0 (succeededOps (runResults start duration env) : Nat),
         addInt64 0 ((failedOps (runResults start duration env)
           + rejectedBatches (runResults start duration env) : Nat) : Int)) := by
  have h := runTally_wrap (runResults start duration env) 0 0
  have h0 : addInt64 0 0 = 0 := by decide
  simp only [h0, zero_add] at h
  simp only [testDB, foldl_workers_eq]
  rw [show (List.foldr (fun (i : Nat) acc =>
      workerResults (start + duration) (Int.ofNat i) (env i) newWorkerState ++ acc) []
      (List.range concurrencyLevel)) = runResults start duration env from rfl, h]

/-! ## Interleavings -/

theorem applyIncr_comm (c : Counters) (x y : Incr) :
    applyIncr (applyIncr c x) y = applyIncr (applyIncr c y) x := by
  cases x <;> cases y <;> rfl

/-- The totals do not depend on the order in which the atomic additions land. -/
theorem foldl_applyIncr_perm (l1 l2 : List Incr) (h : l1.Perm l2) (c : Counters) :
    l1.foldl applyIncr c = l2.foldl applyIncr c :=
  h.foldl_eq' (fun x _ y _ z => applyIncr_comm z x y) c

theorem tallyCmds_eq_foldl (cmds : List Cmder) (c : Counters) :
    tallyCmds cmds c
      = (cmds.map (fun cmd => if cmd.err.isSome then Incr.error else Incr.op)).foldl applyIncr c := by
  induction cmds generalizing c with
  | nil => rfl
  | cons cmd rest ih =>
    by_cases h : cmd.err.isSome = true
    · simp only [tallyCmds, h, if_true, List.map_cons, List.foldl_cons, ih, applyIncr]
    · have h1 : cmd.err.isSome = false := by simpa using h
      simp only [tallyCmds, h1, Bool.false_eq_true, if_false, List.map_cons, List.foldl_cons, ih,
        applyIncr]

theorem tallyExec_eq_foldl (r : ExecResult) (c : Counters) :
    tallyExec r c = (execIncrs r).foldl applyIncr c := by
  by_cases h : r.err.isSome = true
  · simp only [tallyExec, execIncrs, h, if_true, List.foldl_cons, List.foldl_nil, applyIncr]
  · have h1 : r.err.isSome = false := by simpa using h
    simp only [tallyExec, execIncrs, h1, Bool.false_eq_true, if_false, tallyCmds_eq_foldl]

theorem runTally_eq_foldl (rs : List ExecResult) (c : Counters) :
    runTally rs c = (runIncrs rs).foldl applyIncr c := by
  induction rs generalizing c with
  | nil => rfl
  | cons r rest ih =>
    rw [runTally_cons, ih, tallyExec_eq_foldl]
    simp only [runIncrs, List.foldl_append]

/-- Whatever the order in which the atomic additions of the workers interleave,
the counters end with the totals `testDB` returns. -/
theorem testDB_interleaving (start duration : Int) (env : Nat → List Tick) (sched : List Incr)
    (h : sched.Perm (runIncrs (runResults start duration env))) :
    ((sched.foldl applyIncr { ops := 0, errors := 0 }).ops,
      (sched.foldl applyIncr { ops := 0, errors := 0 }).errors) = testDB start duration env := by
  rw [foldl_applyIncr_perm _ _ h, ← runTally_eq_foldl]
  simp only [testDB, foldl_workers_eq]
  rfl

/-! ## Results met during a run -/

theorem workerResults_forall (Q : ExecResult → Prop) (endTime workerID : Int)
    (ticks : List Tick) (s : WorkerState)
    (h : ∀ tk ∈ ticks, ∀ (w u : Int) (s : WorkerState), Q (tk.exec (buildBatch w u s).cmds)) :
    ∀ r ∈ workerResults endTime workerID ticks s, Q r := by
  induction ticks generalizing s with
  | nil => intro r hr; simp [workerResults] at hr
  | cons tk rest ih =>
    intro r hr
    by_cases hlt : tk.now < endTime
    · simp only [workerResults, hlt, if_true, List.mem_cons] at hr
      rcases hr with hr | hr
      · rw [hr]
        exact h tk (List.mem_cons_self _ _) _ _ _
      · exact ih _ (fun tk2 h2 => h tk2 (List.mem_cons_of_mem _ h2)) r hr
    · simp [workerResults, hlt] at hr

theorem foldr_results_forall (Q : ExecResult → Prop) (endTime : Int) (env : Nat → List Tick)
    (l : List Nat)
    (h : ∀ i ∈ l, ∀ tk ∈ env i, ∀ (w u : Int) (s : WorkerState),
      Q (tk.exec (buildBatch w u s).cmds)) :
    ∀ r ∈ l.foldr (fun (i : Nat) acc =>
      workerResults endTime (Int.ofNat i) (env i) newWorkerState ++ acc) [], Q r := by
  induction l with
  | nil => intro r hr; simp at hr
  | cons i rest ih =>
    intro r hr
    simp only [List.foldr_cons, List.mem_append] at hr
    rcases hr with hr | hr
    · exact workerResults_forall Q _ _ _ _ (h i (List.mem_cons_self _ _)) r hr
    · exact ih (fun j hj => h j (List.mem_cons_of_mem _ hj)) r hr

theorem runResults_forall (Q : ExecResult → Prop) (start duration : Int)
    (env : Nat → List Tick)
    (h : ∀ i, i < concurrencyLevel → ∀ tk ∈ env i, ∀ (w u : Int) (s : WorkerState),
      Q (tk.exec (buildBatch w u s).cmds)) :
    ∀ r ∈ runResults start duration env, Q r :=
  foldr_results_forall Q _ env _ (fun i hi => h i (List.mem_range.mp hi))

theorem counts_of_all_rejected (rs : List ExecResult)
    (h : ∀ r ∈ rs, r.err.isSome = true) :
    succeededOps rs = 0 ∧ failedOps rs = 0 ∧ rejectedBatches rs = rs.length := by
  induction rs with
  | nil => simp [succeededOps, failedOps, rejectedBatches]
  | cons r rest ih =>
    have hr := h r (List.mem_cons_self _ _)
    obtain ⟨h1, h2, h3⟩ := ih (fun r2 h2 => h r2 (List.mem_cons_of_mem _ h2))
    simp only [succeededOps, failedOps, rejectedBatches, hr, if_true, h1, h2, h3,
      List.length_cons]
    refine ⟨?_, ?_, ?_⟩ <;> first | trivial | omega

theorem failedOps_of_no_op_error (rs : List ExecResult)
    (h : ∀ r ∈ rs, r.err.isSome = false → ∀ cmd ∈ r.cmds, cmd.err.isSome = false) :
    failedOps rs = 0 := by
  induction rs with
  | nil => rfl
  | cons r rest ih =>
    have h2 := ih (fun r2 hr2 => h r2 (List.mem_cons_of_mem _ hr2))
    by_cases hr : r.err.isSome = true
    · simp only [failedOps, hr, if_true, h2]
    · have hr1 : r.err.isSome = false := by simpa using hr
      have h3 := h r (List.mem_cons_self _ _) hr1
      have h4 : r.cmds.countP (fun cmd => cmd.err.isSome) = 0 := by
        rw [List.countP_eq_zero]
        intro cmd hc
        simp [h3 cmd hc]
      simp only [failedOps, hr1, Bool.false_eq_true, if_false, h2, h4]

theorem counts_of_all_succeeded (rs : List ExecResult)
    (h : ∀ r ∈ rs, r.err.isSome = false ∧ r.cmds.length = 4
      ∧ ∀ cmd ∈ r.cmds, cmd.err.isSome = false) :
    succeededOps rs = 4 * rs.length ∧ failedOps rs = 0 ∧ rejectedBatches rs = 0 := by
  induction rs with
  | nil => simp [succeededOps, failedOps, rejectedBatches]
  | cons r rest ih =>
    obtain ⟨hr1, hr2, hr3⟩ := h r (List.mem_cons_self _ _)
    obtain ⟨h1, h2, h3⟩ := ih (fun r2 h2 => h r2 (List.mem_cons_of_mem _ h2))
    have h4 : r.cmds.countP (fun cmd => cmd.err.isSome) = 0 := by
      rw [List.countP_eq_zero]
      intro cmd hc
      simp [hr3 cmd hc]
    have h5 : r.cmds.countP (fun cmd => !cmd.err.isSome) = 4 := by
      rw [← hr2, List.countP_eq_length]
      intro cmd hc
      simp [hr3 cmd hc]
    simp only [succeededOps, failedOps, rejectedBatches, hr1, Bool.false_eq_true, if_false,
      h1, h2, h3, h4, h5, List.length_cons]
    refine ⟨?_, ?_, ?_⟩ <;> first | trivial | omega

theorem soloEnv_exec (k : Nat) (exec : List Cmd → ExecResult) (i : Nat) (tk : Tick)
    (h : tk ∈ soloEnv k exec i) : tk.exec = exec := by
  unfold soloEnv at h
  split at h
  · simp only [List.mem_append, List.mem_replicate, List.mem_singleton] at h
    rcases h with ⟨_, h⟩ | h <;> rw [h]
  · simp only [List.mem_singleton] at h
    rw [h]

/-! ## Decimal formatting -/

theorem fmtDigits_acc (fuel u : Nat) (acc : Bytes) :
    fmtDigits fuel u acc = fmtDigits fuel u [] ++ acc := by
  induction fuel generalizing u acc with
  | zero => simp [fmtDigits]
  | succ f ih =>
    by_cases h : 10 ≤ u
    · simp only [fmtDigits, h, if_true]
      rw [ih, ih (u / 10) [digitChar (u % 10)]]
      simp
    · simp [fmtDigits, h]

theorem fmtDigits_fuel (f1 f2 u : Nat) (acc : Bytes) (h1 : u ≤ f1) (h2 : u ≤ f2) :
    fmtDigits f1 u acc = fmtDigits f2 u acc := by
  induction f1 generalizing f2 u acc with
  | zero =>
    have hu : u = 0 := by omega
    subst hu
    cases f2 with
    | zero => rfl
    | succ f => simp [fmtDigits]
  | succ f ih =>
    cases f2 with
    | zero =>
      have hu : u = 0 := by omega
      subst hu
      simp [fmtDigits]
    | succ g =>
      by_cases h : 10 ≤ u
      · simp only [fmtDigits, h, if_true]
        exact ih _ _ _ (by omega) (by omega)
      · simp [fmtDigits, h]

theorem fmtNat_of_lt (u : Nat) (h : u < 10) : fmtNat u = [digitChar u] := by
  cases u with
  | zero => rfl
  | succ n =>
    have h2 : ¬ 10 ≤ n + 1 := by omega
    simp [fmtNat, fmtDigits, h2]

theorem fmtNat_of_ge (u : Nat) (h : 10 ≤ u) :
    fmtNat u = fmtNat (u / 10) ++ [digitChar (u % 10)] := by
  cases u with
  | zero => omega
  | succ n =>
    simp only [fmtNat, fmtDigits, h, if_true]
    rw [fmtDigits_acc]
    rw [fmtDigits_fuel n ((n + 1) / 10) ((n + 1) / 10) [] (by omega) (le_refl _)]

theorem digitChar_toNat (d : Nat) (h : d < 10) : (digitChar d).toNat = 48 + d := by
  interval_cases d <;> rfl

theorem parseNat_append (a : Bytes) (c : Char) :
    parseNat (a ++ [c]) = 10 * parseNat a + (c.toNat - 48) := by
  simp [parseNat, List.foldl_append]

theorem parseNat_fmtNat (u : Nat) : parseNat (fmtNat u) = u := by
  induction u using Nat.strong_induction_on with
  | _ u ih =>
    by_cases h : 10 ≤ u
    · rw [fmtNat_of_ge u h, parseNat_append, ih (u / 10) (by omega),
        digitChar_toNat _ (Nat.mod_lt _ (by decide))]
      omega
    · rw [fmtNat_of_lt u (by omega)]
      simp only [parseNat, List.foldl_cons, List.foldl_nil]
      rw [digitChar_toNat u (by omega)]
      omega

theorem fmtNat_injective (u v : Nat) (h : fmtNat u = fmtNat v) : u = v := by
  have h2 := congrArg parseNat h
  rwa [parseNat_fmtNat, parseNat_fmtNat] at h2

theorem fmtNat_digits (u : Nat) : ∀ c ∈ fmtNat u, 48 ≤ c.toNat := by
  induction u using Nat.strong_induction_on with
  | _ u ih =>
    intro c hc
    by_cases h : 10 ≤ u
    · rw [fmtNat_of_ge u h, List.mem_append, List.mem_singleton] at hc
      rcases hc with hc | hc
      · exact ih (u / 10) (by omega) c hc
      · rw [hc, digitChar_toNat _ (Nat.mod_lt _ (by decide))]
        omega
    · rw [fmtNat_of_lt u (by omega), List.mem_singleton] at hc
      rw [hc, digitChar_toNat u (by omega)]
      omega

theorem fmtNat_ne_minus (u : Nat) (rest : Bytes) : fmtNat u ≠ '-' :: rest := by
  intro h
  have h2 := fmtNat_digits u '-' (by rw [h]; exact List.mem_cons_self _ _)
  exact absurd h2 (by decide)

theorem fmtInt_injective (i j : Int) (h : fmtInt i = fmtInt j) : i = j := by
  unfold fmtInt at h
  by_cases hi : i < 0 <;> by_cases hj : j < 0
  · simp only [hi, hj, if_true, List.cons.injEq, true_and] at h
    have := fmtNat_injective _ _ h
    omega
  · simp only [hi, hj, if_true, if_false] at h
    exact absurd h.symm (fmtNat_ne_minus _ _)
  · simp only [hi, hj, if_true, if_false] at h
    exact absurd h (fmtNat_ne_minus _ _)
  · simp only [hi, hj, if_false] at h
    have := fmtNat_injective _ _ h
    omega

theorem fmtNat_length_le (k u : Nat) (h : u < 10 ^ (k + 1)) : (fmtNat u).length ≤ k + 1 := by
  induction k generalizing u with
  | zero =>
    rw [fmtNat_of_lt u (by simpa using h)]
    simp
  | succ k ih =>
    by_cases h10 : 10 ≤ u
    · rw [fmtNat_of_ge u h10, List.length_append, List.length_singleton]
      have h2 : u / 10 < 10 ^ (k + 1) := by
        apply Nat.div_lt_of_lt_mul
        rw [← pow_succ']
        exact h
      have := ih (u / 10) h2
      omega
    · rw [fmtNat_of_lt u (by omega)]
      simp

theorem fmtNat_length_ge (k u : Nat) (h : 10 ^ k ≤ u) : k + 1 ≤ (fmtNat u).length := by
  induction k generalizing u with
  | zero =>
    by_cases h10 : 10 ≤ u
    · rw [fmtNat_of_ge u h10]
      simp
    · rw [fmtNat_of_lt u (by omega)]
      simp
  | succ k ih =>
    have hk : 1 ≤ 10 ^ k := Nat.one_le_pow _ _ (by decide)
    have h10 : 10 ≤ u := by
      rw [pow_succ] at h
      omega
    rw [fmtNat_of_ge u h10, List.length_append, List.length_singleton]
    have h2 : 10 ^ k ≤ u / 10 := by
      rw [Nat.le_div_iff_mul_le (by decide)]
      rw [pow_succ] at h
      exact h
    have := ih (u / 10) h2
    omega

theorem fmtInt_length_worker (w : Int) (h0 : 0 ≤ w) (h1 : w < 1000) :
    (fmtInt w).length ≤ 3 := by
  have hw : ¬ w < 0 := by omega
  simp only [fmtInt, hw, if_false]
  exact fmtNat_length_le 2 _ (by norm_num; omega)

theorem fmtInt_length_int64 (t : Int) (h0 : -9223372036854775808 ≤ t)
    (h1 : t < 9223372036854775808) : (fmtInt t).length ≤ 20 := by
  have hn : (fmtNat t.natAbs).length ≤ 19 :=
    fmtNat_length_le 18 _ (by norm_num; omega)
  unfold fmtInt
  split
  · simp only [List.length_cons]
    omega
  · omega

theorem sprintfKey_length_le (w t : Int) (hw0 : 0 ≤ w) (hw1 : w < 1000)
    (ht0 : -9223372036854775808 ≤ t) (ht1 : t < 9223372036854775808) :
    (sprintfKey w t).length ≤ 24 := by
  have h1 := fmtInt_length_worker w hw0 hw1
  have h2 := fmtInt_length_int64 t ht0 ht1
  simp only [sprintfKey, List.length_cons, List.length_append]
  omega

/-! ## The batch builder -/

theorem copy_of_le (dst src : Bytes) (h : src.length ≤ dst.length) :
    copy dst src = (src ++ dst.drop src.length, src.length) := by
  simp only [copy, Nat.min_eq_right h, List.take_length]

theorem derive_key (buf key suffix : Bytes) (h : key.length + suffix.length ≤ buf.length) :
    copyAt (copy buf key).1 key.length suffix
      = key ++ suffix ++ buf.drop (key.length + suffix.length) := by
  rw [copy_of_le buf key (by omega)]
  simp only [copyAt, List.take_left', List.drop_left']
  rw [copy_of_le _ suffix (by rw [List.length_drop]; omega)]
  simp only [List.drop_drop, List.append_assoc]

/-- What `buildBatch` computes when the formatted text fits the key buffer. -/
theorem buildBatch_eq (w t : Int) (s : WorkerState) (hk : s.keyBuf.length = 32)
    (hh : s.hashKey.length = 37) (hl : s.listKey.length = 37)
    (ht : (sprintfKey w t).length ≤ 32) :
    buildBatch w t s =
      { state :=
          { keyBuf := sprintfKey w t ++ s.keyBuf.drop (sprintfKey w t).length
            hashKey := sprintfKey w t ++ hashSuffix
              ++ s.hashKey.drop ((sprintfKey w t).length + 5)
            listKey := sprintfKey w t ++ listSuffix
              ++ s.listKey.drop ((sprintfKey w t).length + 5) }
        n := (sprintfKey w t).length
        key := sprintfKey w t
        cmds :=
          [ Cmd.Set (sprintfKey w t) valueBuf 0,
            Cmd.HSet (sprintfKey w t ++ hashSuffix
              ++ s.hashKey.drop ((sprintfKey w t).length + 5))
              ["field1", "value1", "field2", "value2"],
            Cmd.LPush (sprintfKey w t ++ listSuffix
              ++ s.listKey.drop ((sprintfKey w t).length + 5))
              ["item1", "item2", "item3"],
            Cmd.Get (sprintfKey w t) ] } := by
  have hc := copy_of_le s.keyBuf (sprintfKey w t) (by omega)
  have h1 := derive_key s.hashKey (sprintfKey w t) hashSuffix
    (by simp only [hashSuffix, List.length_cons, List.length_nil]; omega)
  have h2 := derive_key s.listKey (sprintfKey w t) listSuffix
    (by simp only [listSuffix, List.length_cons, List.length_nil]; omega)
  have e1 : hashSuffix.length = 5 := rfl
  have e2 : listSuffix.length = 5 := rfl
  rw [e1] at h1
  rw [e2] at h2
  unfold buildBatch
  rw [hc]
  simp only [List.take_left', h1, h2]

theorem sprintfKey_inj_of_width (w1 t1 w2 t2 : Int)
    (hlen : (fmtInt t1).length = (fmtInt t2).length ∨ (fmtInt w1).length = (fmtInt w2).length)
    (h : sprintfKey w1 t1 = sprintfKey w2 t2) : w1 = w2 ∧ t1 = t2 := by
  simp only [sprintfKey, List.cons.injEq, true_and] at h
  rcases hlen with hlen | hlen
  · obtain ⟨ha, hb⟩ := List.append_inj' h hlen
    exact ⟨fmtInt_injective _ _ ha, fmtInt_injective _ _ hb⟩
  · obtain ⟨ha, hb⟩ := List.append_inj h hlen
    exact ⟨fmtInt_injective _ _ ha, fmtInt_injective _ _ hb⟩

/-- Every `UnixNano` value from `10^18` (September 2001) to the end of the `int64`
range is written with 19 digits. -/
theorem fmtInt_length_era (t : Int) (h0 : 1000000000000000000 ≤ t)
    (h1 : t < 9223372036854775808) : (fmtInt t).length = 19 := by
  have hneg : ¬ t < 0 := by omega
  simp only [fmtInt, hneg, if_false]
  have hle := fmtNat_length_le 18 t.natAbs (by norm_num; omega)
  have hge := fmtNat_length_ge 18 t.natAbs (by norm_num; omega)
  omega

/-! ## Claims on the batch builder -/

/-- C6 (code defect): the key passed to `HSet` is meant to be the scalar key followed
by `:hash` and the key passed to `LPush` the scalar key followed by `:list`, but
`string(hashKey)` and `string(listKey)` convert the whole 37-byte buffers. For
worker 0 at `UnixNano` 1700000000000000000 with fresh buffers, both keys are the
26 expected bytes followed by 11 zero bytes. -/
theorem buildBatch_derived_keys_padded :
    (buildBatch 0 1700000000000000000 newWorkerState).key
        = 'k' :: '0' :: "1700000000000000000".toList
      ∧ hsetKey (buildBatch 0 1700000000000000000 newWorkerState).cmds
        = some ((buildBatch 0 1700000000000000000 newWorkerState).key ++ hashSuffix ++ make 11)
      ∧ lpushKey (buildBatch 0 1700000000000000000 newWorkerState).cmds
        = some ((buildBatch 0 1700000000000000000 newWorkerState).key ++ listSuffix ++ make 11)
      ∧ hsetKey (buildBatch 0 1700000000000000000 newWorkerState).cmds
        ≠ some ((buildBatch 0 1700000000000000000 newWorkerState).key ++ hashSuffix)
      ∧ lpushKey (buildBatch 0 1700000000000000000 newWorkerState).cmds
        ≠ some ((buildBatch 0 1700000000000000000 newWorkerState).key ++ listSuffix) := by
  decide

/-- C7: two different workers in `0..999` reading the same `int64` timestamp build
different scalar keys. -/
theorem buildBatch_key_ne_of_worker_ne (w1 w2 t : Int) (s1 s2 : WorkerState)
    (h1 : 0 ≤ w1 ∧ w1 < 1000) (h2 : 0 ≤ w2 ∧ w2 < 1000)
    (ht : -9223372036854775808 ≤ t ∧ t < 9223372036854775808)
    (hk1 : s1.keyBuf.length = 32) (hh1 : s1.hashKey.length = 37) (hl1 : s1.listKey.length = 37)
    (hk2 : s2.keyBuf.length = 32) (hh2 : s2.hashKey.length = 37) (hl2 : s2.listKey.length = 37)
    (hne : w1 ≠ w2) :
    (buildBatch w1 t s1).key ≠ (buildBatch w2 t s2).key := by
  have e1 := sprintfKey_length_le w1 t h1.1 h1.2 ht.1 ht.2
  have e2 := sprintfKey_length_le w2 t h2.1 h2.2 ht.1 ht.2
  rw [buildBatch_eq w1 t s1 hk1 hh1 hl1 (by omega), buildBatch_eq w2 t s2 hk2 hh2 hl2 (by omega)]
  intro h
  exact hne (sprintfKey_inj_of_width w1 t w2 t (Or.inl rfl) h).1

theorem buildBatch_key_ne_of_worker_ne_witness :
    (buildBatch 3 1700000000000000000 newWorkerState).key
      ≠ (buildBatch 4 1700000000000000000 newWorkerState).key :=
  buildBatch_key_ne_of_worker_ne 3 4 1700000000000000000 newWorkerState newWorkerState
    (by decide) (by decide) (by decide) (by decide) (by decide) (by decide) (by decide)
    (by decide) (by decide) (by decide)

/-- C8, as stated, fails: worker 1 at timestamp 23 and worker 12 at timestamp 3 are
distinct pairs that build the same scalar key `k123`. -/
theorem buildBatch_key_collision :
    ((1 : Int), (23 : Int)) ≠ ((12 : Int), (3 : Int))
      ∧ (buildBatch 1 23 newWorkerState).key = (buildBatch 12 3 newWorkerState).key := by
  decide

/-- C8, amended: distinct pairs (worker in `0..999`, `int64` timestamp) build distinct
scalar keys whenever the two timestamps are written with the same number of
characters, or the two worker identities with the same number of digits. -/
theorem buildBatch_key_injective_of_width (w1 w2 t1 t2 : Int) (s1 s2 : WorkerState)
    (h1 : 0 ≤ w1 ∧ w1 < 1000) (h2 : 0 ≤ w2 ∧ w2 < 1000)
    (ht1 : -9223372036854775808 ≤ t1 ∧ t1 < 9223372036854775808)
    (ht2 : -9223372036854775808 ≤ t2 ∧ t2 < 9223372036854775808)
    (hk1 : s1.keyBuf.length = 32) (hh1 : s1.hashKey.length = 37) (hl1 : s1.listKey.length = 37)
    (hk2 : s2.keyBuf.length = 32) (hh2 : s2.hashKey.length = 37) (hl2 : s2.listKey.length = 37)
    (hlen : (fmtInt t1).length = (fmtInt t2).length ∨ (fmtInt w1).length = (fmtInt w2).length)
    (hne : (w1, t1) ≠ (w2, t2)) :
    (buildBatch w1 t1 s1).key ≠ (buildBatch w2 t2 s2).key := by
  have e1 := sprintfKey_length_le w1 t1 h1.1 h1.2 ht1.1 ht1.2
  have e2 := sprintfKey_length_le w2 t2 h2.1 h2.2 ht2.1 ht2.2
  rw [buildBatch_eq w1 t1 s1 hk1 hh1 hl1 (by omega),
    buildBatch_eq w2 t2 s2 hk2 hh2 hl2 (by omega)]
  intro h
  obtain ⟨ha, hb⟩ := sprintfKey_inj_of_width w1 t1 w2 t2 hlen h
  exact hne (by rw [ha, hb])

theorem buildBatch_key_injective_of_width_witness :
    (buildBatch 1 1700000000000000023 newWorkerState).key
      ≠ (buildBatch 12 1700000000000000003 newWorkerState).key :=
  buildBatch_key_injective_of_width 1 12 1700000000000000023 1700000000000000003
    newWorkerState newWorkerState (by decide) (by decide) (by decide) (by decide)
    (by decide) (by decide) (by decide) (by decide) (by decide) (by decide)
    (Or.inl (by decide)) (by decide)

/-- C9 (code defect): the build is meant to depend on `(workerID, timestamp)` only,
but the hash and list key strings carry the bytes an earlier iteration left beyond
the suffix. Worker 7 building at `UnixNano` 946684800000000000 gets the same scalar
key with fresh buffers and with the buffers left by a build at 1700000000000000000,
yet a different `HSet` key, a different `LPush` key and so a different batch. -/
theorem buildBatch_depends_on_stale_bytes :
    (buildBatch 7 946684800000000000
        (buildBatch 7 1700000000000000000 newWorkerState).state).key
        = (buildBatch 7 946684800000000000 newWorkerState).key
      ∧ hsetKey (buildBatch 7 946684800000000000 newWorkerState).cmds
        = some ((buildBatch 7 946684800000000000 newWorkerState).key ++ hashSuffix ++ make 12)
      ∧ hsetKey (buildBatch 7 946684800000000000
          (buildBatch 7 1700000000000000000 newWorkerState).state).cmds
        = some ((buildBatch 7 946684800000000000 newWorkerState).key ++ hashSuffix
            ++ 'h' :: make 11)
      ∧ lpushKey (buildBatch 7 946684800000000000
          (buildBatch 7 1700000000000000000 newWorkerState).state).cmds
        ≠ lpushKey (buildBatch 7 946684800000000000 newWorkerState).cmds
      ∧ (buildBatch 7 946684800000000000
          (buildBatch 7 1700000000000000000 newWorkerState).state).cmds
        ≠ (buildBatch 7 946684800000000000 newWorkerState).cmds := by
  decide

/-- C10: for a worker in `0..999` and an `int64` timestamp, the formatted text has
at most 32 bytes, so the copy into the 32-byte `keyBuf` keeps all of it (the scalar
key is the whole text and `n` its length); `n + 5 ≤ 37`, so the five bytes of each
suffix land at offsets `n..n+4` of the 37-byte buffers, whose sizes do not change. -/
theorem buildBatch_in_bounds (w t : Int) (s : WorkerState)
    (hw : 0 ≤ w ∧ w < 1000)
    (ht : -9223372036854775808 ≤ t ∧ t < 9223372036854775808)
    (hk : s.keyBuf.length = 32) (hh : s.hashKey.length = 37) (hl : s.listKey.length = 37) :
    (sprintfKey w t).length ≤ 32
      ∧ (buildBatch w t s).n = (sprintfKey w t).length
      ∧ (buildBatch w t s).key = sprintfKey w t
      ∧ (buildBatch w t s).n + 5 ≤ 37
      ∧ ((buildBatch w t s).state.hashKey.drop (buildBatch w t s).n).take 5 = hashSuffix
      ∧ ((buildBatch w t s).state.listKey.drop (buildBatch w t s).n).take 5 = listSuffix
      ∧ (buildBatch w t s).state.keyBuf.length = 32
      ∧ (buildBatch w t s).state.hashKey.length = 37
      ∧ (buildBatch w t s).state.listKey.length = 37 := by
  have e := sprintfKey_length_le w t hw.1 hw.2 ht.1 ht.2
  rw [buildBatch_eq w t s hk hh hl (by omega)]
  have e1 : hashSuffix.length = 5 := rfl
  have e2 : listSuffix.length = 5 := rfl
  refine ⟨by omega, rfl, rfl, by simp only; omega, ?_, ?_, ?_, ?_, ?_⟩
  · simp only [List.append_assoc, List.drop_left']
    rw [← e1, List.take_left']
    rfl
  · simp only [List.append_assoc, List.drop_left']
    rw [← e2, List.take_left']
    rfl
  · simp only [List.length_append, List.length_drop]
    omega
  · simp only [List.length_append, List.length_drop, e1]
    omega
  · simp only [List.length_append, List.length_drop, e2]
    omega

theorem buildBatch_in_bounds_witness :
    (sprintfKey 999 (-9223372036854775808)).length ≤ 32
      ∧ (buildBatch 999 (-9223372036854775808) newWorkerState).n
        = (sprintfKey 999 (-9223372036854775808)).length
      ∧ (buildBatch 999 (-9223372036854775808) newWorkerState).key
        = sprintfKey 999 (-9223372036854775808)
      ∧ (buildBatch 999 (-9223372036854775808) newWorkerState).n + 5 ≤ 37
      ∧ ((buildBatch 999 (-9223372036854775808) newWorkerState).state.hashKey.drop
          (buildBatch 999 (-9223372036854775808) newWorkerState).n).take 5 = hashSuffix
      ∧ ((buildBatch 999 (-9223372036854775808) newWorkerState).state.listKey.drop
          (buildBatch 999 (-9223372036854775808) newWorkerState).n).take 5 = listSuffix
      ∧ (buildBatch 999 (-9223372036854775808) newWorkerState).state.keyBuf.length = 32
      ∧ (buildBatch 999 (-9223372036854775808) newWorkerState).state.hashKey.length = 37
      ∧ (buildBatch 999 (-9223372036854775808) newWorkerState).state.listKey.length = 37 :=
  buildBatch_in_bounds 999 (-9223372036854775808) newWorkerState (by decide) (by decide)
    (by decide) (by decide) (by decide)

/-! ## Claims on the load runner -/

/-- C1, as stated, fails: when worker 0 meets one rejected batch and nothing else
happens, `testDB` returns attempted `0` and failed `1`, so `failed ≤ attempted` is
false. -/
theorem testDB_failed_exceeds_attempted :
    testDB 0 5 (soloEnv 1 rejectAll) = (0, 1)
      ∧ ¬ (0 ≤ (testDB 0 5 (soloEnv 1 rejectAll)).2
        ∧ (testDB 0 5 (soloEnv 1 rejectAll)).2 ≤ (testDB 0 5 (soloEnv 1 rejectAll)).1) := by
  set_option maxRecDepth 100000 in decide

/-- C1, amended: in a run whose counts fit `int64`, both totals are non-negative;
and when no operation of an executed batch reports an error, `failed` is the number
of rejected batches, so that `failed ≤ attempted + (number of rejected batches)`. -/
theorem testDB_failed_le_attempted_add_rejected (start duration : Int)
    (env : Nat → List Tick)
    (hs : succeededOps (runResults start duration env) < 9223372036854775808)
    (hf : failedOps (runResults start duration env)
      + rejectedBatches (runResults start duration env) < 9223372036854775808) :
    0 ≤ (testDB start duration env).1
      ∧ 0 ≤ (testDB start duration env).2
      ∧ ((∀ r ∈ runResults start duration env, r.err.isSome = false →
            ∀ cmd ∈ r.cmds, cmd.err.isSome = false) →
          (testDB start duration env).2
              = (rejectedBatches (runResults start duration env) : Int)
            ∧ (testDB start duration env).2
              ≤ (testDB start duration env).1
                + (rejectedBatches (runResults start duration env) : Int)) := by
  rw [testDB_eq]
  simp only
  rw [addInt64_zero_of_bound _ (by omega) (by omega),
    addInt64_zero_of_bound _ (by omega) (by omega)]
  refine ⟨by omega, by omega, fun hok => ?_⟩
  have h0 := failedOps_of_no_op_error _ hok
  rw [h0, Nat.zero_add]
  omega

theorem testDB_failed_le_attempted_add_rejected_witness :
    (∀ r ∈ runResults 0 1000 (planEnv [(2, succeedAll), (3, rejectAll)]),
        r.err.isSome = false → ∀ cmd ∈ r.cmds, cmd.err.isSome = false)
      ∧ testDB 0 1000 (planEnv [(2, succeedAll), (3, rejectAll)]) = (8, 3)
      ∧ 0 ≤ (testDB 0 1000 (planEnv [(2, succeedAll), (3, rejectAll)])).1
      ∧ 0 ≤ (testDB 0 1000 (planEnv [(2, succeedAll), (3, rejectAll)])).2
      ∧ ((∀ r ∈ runResults 0 1000 (planEnv [(2, succeedAll), (3, rejectAll)]),
            r.err.isSome = false → ∀ cmd ∈ r.cmds, cmd.err.isSome = false) →
          (testDB 0 1000 (planEnv [(2, succeedAll), (3, rejectAll)])).2
              = (rejectedBatches
                  (runResults 0 1000 (planEnv [(2, succeedAll), (3, rejectAll)])) : Int)
            ∧ (testDB 0 1000 (planEnv [(2, succeedAll), (3, rejectAll)])).2
              ≤ (testDB 0 1000 (planEnv [(2, succeedAll), (3, rejectAll)])).1
                + (rejectedBatches
                    (runResults 0 1000 (planEnv [(2, succeedAll), (3, rejectAll)])) : Int)) :=
  ⟨by set_option maxRecDepth 100000 in decide,
    by set_option maxRecDepth 100000 in decide,
    testDB_failed_le_attempted_add_rejected 0 1000 (planEnv [(2, succeedAll), (3, rejectAll)])
      (by set_option maxRecDepth 100000 in decide)
      (by set_option maxRecDepth 100000 in decide)⟩

/-- C2: for a batch whose execution call returns no error, with `Pipeline.Exec`
reporting the first command error as go-redis does, and away from `int64` overflow,
`ops` grows by one for every returned outcome and `errors` by one for every outcome
that reports an error. -/
theorem tallyExec_executed_batch (r : ExecResult) (c : Counters)
    (hexec : r.err = none) (hlib : execReportsFirstError r)
    (hops : -9223372036854775808 ≤ c.ops
      ∧ c.ops + (r.cmds.length : Int) < 9223372036854775808)
    (herr : -9223372036854775808 ≤ c.errors
      ∧ c.errors + (r.cmds.countP (fun cmd => cmd.err.isSome) : Nat) < 9223372036854775808) :
    (tallyExec r c).ops = c.ops + (r.cmds.length : Int)
      ∧ (tallyExec r c).errors
        = c.errors + (r.cmds.countP (fun cmd => cmd.err.isSome) : Nat) := by
  have hall := hlib hexec
  have hsucc : r.cmds.countP (fun cmd => !cmd.err.isSome) = r.cmds.length := by
    rw [List.countP_eq_length]
    intro cmd hc
    simp [hall cmd hc]
  have hnone : r.err.isSome = false := by rw [hexec]; rfl
  simp only [tallyExec, hnone, Bool.false_eq_true, if_false]
  rw [tallyCmds_exact r.cmds c hops.1 (by rw [hsucc]; exact hops.2) herr.1 herr.2, hsucc]
  exact ⟨rfl, rfl⟩

theorem tallyExec_executed_batch_witness :
    (tallyExec { cmds := [okCmd, okCmd, okCmd, okCmd], err := none }
        { ops := 8, errors := 3 }).ops = 8 + (4 : Nat)
      ∧ (tallyExec { cmds := [okCmd, okCmd, okCmd, okCmd], err := none }
        { ops := 8, errors := 3 }).errors
        = 3 + (([okCmd, okCmd, okCmd, okCmd] : List Cmder).countP
            (fun cmd => cmd.err.isSome) : Nat) :=
  tallyExec_executed_batch { cmds := [okCmd, okCmd, okCmd, okCmd], err := none }
    { ops := 8, errors := 3 } rfl (fun _ => by decide) (by decide) (by decide)

/-- C3: the failed total `testDB` returns is the number of operations that reported
an error in executed batches plus the number of rejected batches (the sum fitting
`int64`). -/
theorem testDB_failed_total (start duration : Int) (env : Nat → List Tick)
    (h : failedOps (runResults start duration env)
      + rejectedBatches (runResults start duration env) < 9223372036854775808) :
    (testDB start duration env).2
      = ((failedOps (runResults start duration env) : Nat) : Int)
        + ((rejectedBatches (runResults start duration env) : Nat) : Int) := by
  rw [testDB_eq]
  simp only
  rw [addInt64_zero_of_bound _ (by omega) (by omega)]
  push_cast
  rfl

theorem testDB_failed_total_witness :
    (testDB 0 1000 (planEnv [(2, secondFails), (3, rejectAll), (1, succeedAll)])).2
      = ((failedOps (runResults 0 1000
          (planEnv [(2, secondFails), (3, rejectAll), (1, succeedAll)])) : Nat) : Int)
        + ((rejectedBatches (runResults 0 1000
          (planEnv [(2, secondFails), (3, rejectAll), (1, succeedAll)])) : Nat) : Int) :=
  testDB_failed_total 0 1000 (planEnv [(2, secondFails), (3, rejectAll), (1, succeedAll)])
    (by set_option maxRecDepth 100000 in decide)

/-- C4: when the execution call rejects every batch, `testDB` returns attempted `0`
and failed equal to the number of loop iterations performed by all workers (that
number fitting `int64`). -/
theorem testDB_all_rejected (start duration : Int) (env : Nat → List Tick)
    (hrej : ∀ i, i < concurrencyLevel → ∀ tk ∈ env i, ∀ b, (tk.exec b).err.isSome = true)
    (hb : iterations start duration env < 9223372036854775808) :
    testDB start duration env = (0, (iterations start duration env : Int)) := by
  have hall := runResults_forall (fun r => r.err.isSome = true) start duration env
    (fun i hi tk htk _ _ _ => hrej i hi tk htk _)
  obtain ⟨h1, h2, h3⟩ := counts_of_all_rejected _ hall
  unfold iterations at hb ⊢
  rw [testDB_eq, h1, h2, h3, Nat.zero_add]
  rw [addInt64_zero_of_bound ((0 : Nat) : Int) (by omega) (by omega),
    addInt64_zero_of_bound (((runResults start duration env).length : Nat) : Int)
      (by omega) (by omega), Nat.cast_zero]

theorem testDB_all_rejected_witness :
    testDB 0 5 (soloEnv 3 rejectAll) = (0, (iterations 0 5 (soloEnv 3 rejectAll) : Int)) :=
  testDB_all_rejected 0 5 (soloEnv 3 rejectAll)
    (fun i _ tk htk b => by rw [soloEnv_exec _ _ i tk htk]; rfl)
    (by set_option maxRecDepth 100000 in decide)

/-- C5: when the execution call always succeeds and returns one successful outcome
for each queued command, `testDB` returns failed `0` and attempted four times the
number of loop iterations performed by all workers (that product fitting `int64`). -/
theorem testDB_all_succeeded (start duration : Int) (env : Nat → List Tick)
    (hok : ∀ i, i < concurrencyLevel → ∀ tk ∈ env i, ∀ b,
      (tk.exec b).err = none ∧ (tk.exec b).cmds.length = b.length
        ∧ ∀ cmd ∈ (tk.exec b).cmds, cmd.err = none)
    (hb : 4 * iterations start duration env < 9223372036854775808) :
    testDB start duration env = (4 * (iterations start duration env : Int), 0) := by
  have hall := runResults_forall
    (fun r => r.err.isSome = false ∧ r.cmds.length = 4
      ∧ ∀ cmd ∈ r.cmds, cmd.err.isSome = false) start duration env
    (fun i hi tk htk w u s => by
      obtain ⟨h1, h2, h3⟩ := hok i hi tk htk (buildBatch w u s).cmds
      refine ⟨by rw [h1]; rfl, by rw [h2]; rfl, fun cmd hc => by rw [h3 cmd hc]; rfl⟩)
  obtain ⟨h1, h2, h3⟩ := counts_of_all_succeeded _ hall
  unfold iterations at hb ⊢
  rw [testDB_eq, h1, h2, h3]
  rw [addInt64_zero_of_bound _ (by omega) (by omega)]
  have h0 : addInt64 0 ((0 + 0 : Nat) : Int) = 0 := by decide
  rw [h0]
  push_cast
  rfl

theorem testDB_all_succeeded_witness :
    testDB 0 5 (soloEnv 3 succeedAll)
      = (4 * (iterations 0 5 (soloEnv 3 succeedAll) : Int), 0) :=
  testDB_all_succeeded 0 5 (soloEnv 3 succeedAll)
    (fun i _ tk htk b => by
      rw [soloEnv_exec _ _ i tk htk]
      refine ⟨rfl, by simp [succeedAll], fun cmd hc => ?_⟩
      simp only [succeedAll, List.mem_map] at hc
      obtain ⟨_, _, hc⟩ := hc
      rw [← hc]
      rfl)
    (by set_option maxRecDepth 100000 in decide)

end Whobest
